import Mathlib

/-!
Shallow embedding of the smart-storage library (src/index.ts): the backend
Storage surface, the store engine (set/get/remove/clear/has/keys), the change
emitter with subscriptions, and the withPrefix namespacing wrapper.
Timestamps are integers (milliseconds); JS strings are sequences of characters.
-/

namespace SmartStorage

/-- JS strings, modelled as sequences of characters. -/
abbrev Str := List Char

/-- Envelope type Stored of index.ts: field v is the value, optional field e
is the absolute expiry timestamp in milliseconds. -/
structure Stored (α : Type) where
  v : α
  e : Option Int
deriving Repr, DecidableEq

/-- A raw backend slot as seen through safeParse: none models a string that
safeParse rejects (empty or unparseable JSON), some s models the JSON text
produced by serializing envelope s. -/
abbrev Raw (α : Type) := Option (Stored α)

/-- Change events of types.ts: set key, remove key, clear. -/
inductive Change
  | set (key : Str)
  | remove (key : Str)
  | clear
deriving Repr, DecidableEq

/-- The backend Storage surface: an ordered list of key/raw-string entries
(Map insertion order, as in memoryStorage), together with flags recording
whether setItem, removeItem or clear throw (quota or serialization errors on
a real host surface). memoryStorage never throws: all flags false. -/
structure Backing (α : Type) where
  items : List (Str × Raw α)
  setFail : Bool
  removeFail : Bool
  clearFail : Bool
deriving Repr, DecidableEq

variable {α : Type}

/-- Models backing.getItem(k): Map.get, first entry with the key. -/
def getItem (b : Backing α) (k : Str) : Option (Raw α) :=
  b.items.lookup k

/-- Map.set semantics on the entry list: replace the value in place when the
key is present, otherwise append at the end. -/
def setPairs (l : List (Str × Raw α)) (k : Str) (r : Raw α) :
    List (Str × Raw α) :=
  if l.any (fun q => q.1 == k) then
    l.map (fun q => if q.1 == k then (k, r) else q)
  else l ++ [(k, r)]

/-- Models backing.setItem(k, raw). -/
def setItem (b : Backing α) (k : Str) (r : Raw α) : Backing α :=
  { b with items := setPairs b.items k r }

/-- Models backing.removeItem(k): Map.delete. -/
def removeItem (b : Backing α) (k : Str) : Backing α :=
  { b with items := b.items.filter (fun q => !(q.1 == k)) }

/-- Models backing.key(i): the key at index i of the current enumeration,
null when out of range. -/
def keyAt (b : Backing α) (i : Nat) : Option Str :=
  (b.items.get? i).map Prod.fst

/-- Models the guard parsed.e && now() > parsed.e of get: with JS truthiness,
an absent or zero e is falsy, so only a nonzero, strictly passed expiry
counts as expired. -/
def expiredAt (e : Option Int) (now : Int) : Bool :=
  match e with
  | none => false
  | some x => x != 0 && decide (x < now)

/-- Models the payload expression of set: opts?.ttl is truthy exactly when a
nonzero ttl is supplied, in which case e = now() + ttl; otherwise no e. -/
def mkPayload (v : α) (ttl : Option Int) (now : Int) : Stored α :=
  match ttl with
  | some t => if t != 0 then ⟨v, some (now + t)⟩ else ⟨v, none⟩
  | none => ⟨v, none⟩

/-- Models set(key, value, opts): serialize the payload and write it; on a
write failure the exception is swallowed, nothing changes and no event is
emitted; on success exactly one set event is emitted. Returns the new backing
and the list of emitted events. -/
def set (k : Str) (v : α) (ttl : Option Int) (now : Int) (b : Backing α) :
    Backing α × List Change :=
  if b.setFail then (b, [])
  else (setItem b k (some (mkPayload v ttl now)), [Change.set k])

/-- Models get(key): read the raw slot; absent or unparseable yields
undefined with no effect; an expired envelope is lazily removed (removal
failure ignored), a remove event is emitted and undefined returned; otherwise
the unwrapped value is returned. -/
def get (k : Str) (now : Int) (b : Backing α) :
    Option α × Backing α × List Change :=
  match getItem b k with
  | none => (none, b, [])
  | some none => (none, b, [])
  | some (some s) =>
    if expiredAt s.e now then
      (none, (if b.removeFail then b else removeItem b k), [Change.remove k])
    else (some s.v, b, [])

/-- Models remove(key): try removeItem, and in the finally block emit the
remove event — so the event fires even when the backend removal throws. -/
def remove (k : Str) (b : Backing α) : Backing α × List Change :=
  ((if b.removeFail then b else removeItem b k), [Change.remove k])

/-- Models clear(): try backing.clear, and in the finally block emit clear. -/
def clear (b : Backing α) : Backing α × List Change :=
  ((if b.clearFail then b else { b with items := [] }), [Change.clear])

/-- Models has(key): this.get(key) !== undefined, sharing get's effects. -/
def has (k : Str) (now : Int) (b : Backing α) :
    Bool × Backing α × List Change :=
  let r := get k now b
  (r.1.isSome, r.2)

/-- Models the loop body of keys(): for (let i = 0; i < backing.length; i++),
reading backing.length afresh each iteration, skipping falsy keys, and
including k only when this.has(k) holds — which may purge expired entries
from the backing mid-scan. The fuel argument is an upper bound on the number
of iterations; the loop exits on its own once i reaches the current length. -/
def keysLoop (now : Int) :
    Nat → Backing α → Nat → List Str → List Change →
    List Str × Backing α × List Change
  | 0, b, _, ks, evs => (ks, b, evs)
  | fuel + 1, b, i, ks, evs =>
    if i < b.items.length then
      match keyAt b i with
      | none => keysLoop now fuel b (i + 1) ks evs
      | some k =>
        if k.isEmpty then keysLoop now fuel b (i + 1) ks evs
        else
          let r := has k now b
          if r.1 then keysLoop now fuel r.2.1 (i + 1) (ks ++ [k]) (evs ++ r.2.2)
          else keysLoop now fuel r.2.1 (i + 1) ks (evs ++ r.2.2)
    else (ks, b, evs)

/-- Models keys(). The initial length bounds the iteration count: i grows by
one per step and the current length never grows, so the loop condition fails
by the time the fuel runs out. -/
def keys (now : Int) (b : Backing α) : List Str × Backing α × List Change :=
  keysLoop now b.items.length b 0 [] []

/-- JS String.prototype.startsWith on character sequences. -/
def startsWith (s pre : Str) : Bool := pre.isPrefixOf s

/-- The key translation of withPrefix: p(k) is prefix + ":" + k. -/
def pfx (p k : Str) : Str := p ++ [':'] ++ k

/-- withPrefix(store, p).set: delegate with the qualified key. -/
def wpSet (p k : Str) (v : α) (ttl : Option Int) (now : Int) (b : Backing α) :
    Backing α × List Change :=
  set (pfx p k) v ttl now b

/-- withPrefix(store, p).get: delegate with the qualified key. -/
def wpGet (p k : Str) (now : Int) (b : Backing α) :
    Option α × Backing α × List Change :=
  get (pfx p k) now b

/-- withPrefix(store, p).keys: the underlying keys, filtered to those
starting with prefix + ":" and with k.slice(prefix.length + 1) applied. -/
def wpKeys (p : Str) (now : Int) (b : Backing α) :
    List Str × Backing α × List Change :=
  let r := keys now b
  ((r.1.filter (fun k => startsWith k (p ++ [':']))).map
      (fun k => k.drop (p.length + 1)),
    r.2)

/-- The loop of withPrefix(store, p).clear over a snapshot of store.keys():
each key starting with prefix + ":" is removed individually. -/
def wpClearLoop (p : Str) :
    List Str → Backing α → List Change → Backing α × List Change
  | [], b, evs => (b, evs)
  | k :: rest, b, evs =>
    if startsWith k (p ++ [':']) then
      let r := remove k b
      wpClearLoop p rest r.1 (evs ++ r.2)
    else wpClearLoop p rest b evs

/-- Models withPrefix(store, p).clear: enumerate store.keys() once, then
remove every prefixed key; the underlying clear is never invoked. -/
def wpClear (p : Str) (now : Int) (b : Backing α) : Backing α × List Change :=
  let r := keys now b
  wpClearLoop p r.1 r.2.1 r.2.2

/-- An entry whose raw slot parses to an envelope that is not expired at
the given time. -/
def freshB (now : Int) (q : Str × Raw α) : Bool :=
  match q.2 with
  | some s => !expiredAt s.e now
  | none => false

/-! The change emitter with its subscriber list, and a store wired to it.
createEmitter keeps an insertion-ordered collection of listener callbacks;
we name listeners by numeric ids. The delivered log records, in order, each
(listener, event) delivery performed by emit's forEach. -/

structure Sys (α : Type) where
  backing : Backing α
  listeners : List Nat
  nextId : Nat
  delivered : List (Nat × Change)
deriving Repr, DecidableEq

/-- emitter.emit for a list of events, in order: each event is delivered to
every currently registered listener, in subscription order. -/
def publish (s : Sys α) : List Change → Sys α
  | [] => s
  | c :: rest =>
    publish
      { s with delivered := s.delivered ++ s.listeners.map (fun l => (l, c)) }
      rest

/-- subscribe(fn): emitter.on adds the listener and returns its handle. -/
def subscribe (s : Sys α) : Nat × Sys α :=
  (s.nextId,
    { s with listeners := s.listeners ++ [s.nextId], nextId := s.nextId + 1 })

/-- The unsubscribe handle: fns.delete(fn), a total function, so calling it
never raises; deleting an absent listener is a no-op. -/
def unsubscribe (l : Nat) (s : Sys α) : Sys α :=
  { s with listeners := s.listeners.filter (fun x => !(x == l)) }

/-- set on the store engine, with its events fanned out to subscribers. -/
def sysSet (k : Str) (v : α) (ttl : Option Int) (now : Int) (s : Sys α) :
    Sys α :=
  let r := set k v ttl now s.backing
  publish { s with backing := r.1 } r.2

/-- remove on the store engine, with its events fanned out to subscribers. -/
def sysRemove (k : Str) (s : Sys α) : Sys α :=
  let r := remove k s.backing
  publish { s with backing := r.1 } r.2

/-- clear on the store engine, with its events fanned out to subscribers. -/
def sysClear (s : Sys α) : Sys α :=
  let r := clear s.backing
  publish { s with backing := r.1 } r.2

/-- The sequence of events a given listener has received, in order. -/
def receivedBy (l : Nat) (s : Sys α) : List Change :=
  (s.delivered.filter (fun q => q.1 == l)).map Prod.snd

/-! Helper lemmas about the association-list backend. -/

theorem mem_fst_of_lookup {l : List (Str × Raw α)} {k : Str} {r : Raw α}
    (h : l.lookup k = some r) : k ∈ l.map Prod.fst := by
  induction l with
  | nil => simp [List.lookup] at h
  | cons a t ih =>
    obtain ⟨a1, a2⟩ := a
    rw [List.lookup_cons] at h
    cases hk : k == a1 with
    | true => simp [eq_of_beq hk]
    | false =>
      simp only [hk] at h
      simp only [List.map_cons, List.mem_cons]
      exact Or.inr (ih h)

theorem lookup_eq_none {l : List (Str × Raw α)} {k : Str}
    (h : k ∉ l.map Prod.fst) : l.lookup k = none := by
  cases hl : l.lookup k with
  | none => rfl
  | some r => exact absurd (mem_fst_of_lookup hl) h

theorem lookup_sublist {l' l : List (Str × Raw α)} (hsub : List.Sublist l' l)
    (hd : (l.map Prod.fst).Nodup) {k : Str} {r : Raw α}
    (hl : l'.lookup k = some r) : l.lookup k = some r := by
  induction hsub with
  | slnil => simp [List.lookup] at hl
  | @cons l₁ l₂ a hs ih =>
    obtain ⟨a1, a2⟩ := a
    simp only [List.map_cons, List.nodup_cons] at hd
    rw [List.lookup_cons]
    cases hk : k == a1 with
    | true =>
      have hk' : k = a1 := eq_of_beq hk
      exact absurd (hk' ▸ (hs.map Prod.fst).subset (mem_fst_of_lookup hl)) hd.1
    | false =>
      simp only [hk]
      exact ih hd.2 hl
  | @cons₂ l₁ l₂ a hs ih =>
    obtain ⟨a1, a2⟩ := a
    simp only [List.map_cons, List.nodup_cons] at hd
    rw [List.lookup_cons] at hl ⊢
    cases hk : k == a1 with
    | true => simpa only [hk] using hl
    | false =>
      simp only [hk] at hl ⊢
      exact ih hd.2 hl

theorem lookup_map_overwrite (l : List (Str × Raw α)) (k : Str) (r : Raw α)
    (h : l.any (fun q => q.1 == k) = true) :
    (l.map (fun q => if q.1 == k then (k, r) else q)).lookup k = some r := by
  induction l with
  | nil => simp at h
  | cons a t ih =>
    obtain ⟨a1, a2⟩ := a
    simp only [List.map_cons]
    by_cases hk : a1 = k
    · subst hk
      simp only [beq_self_eq_true, if_true, List.lookup_cons]
    · have hk1 : (a1 == k) = false := beq_eq_false_iff_ne.mpr hk
      have hk2 : (k == a1) = false := beq_eq_false_iff_ne.mpr (Ne.symm hk)
      simp only [hk1, if_false, Bool.false_eq_true, List.lookup_cons, hk2]
      apply ih
      simpa [hk1] using h

theorem lookup_append_right {l l₂ : List (Str × Raw α)} {k : Str}
    (h : l.lookup k = none) : (l ++ l₂).lookup k = l₂.lookup k := by
  induction l with
  | nil => simp
  | cons a t ih =>
    obtain ⟨a1, a2⟩ := a
    rw [List.lookup_cons] at h
    rw [List.cons_append, List.lookup_cons]
    cases hk : k == a1 with
    | true => simp [hk] at h
    | false =>
      simp only [hk] at h ⊢
      exact ih h

theorem not_mem_fst_of_not_any {l : List (Str × Raw α)} {k : Str}
    (h : ¬ l.any (fun q => q.1 == k) = true) : k ∉ l.map Prod.fst := by
  intro hm
  apply h
  rw [List.any_eq_true]
  obtain ⟨q, hq, hq1⟩ := List.mem_map.mp hm
  exact ⟨q, hq, by simp [hq1]⟩

theorem lookup_setPairs (l : List (Str × Raw α)) (k : Str) (r : Raw α) :
    (setPairs l k r).lookup k = some r := by
  unfold setPairs
  split
  · exact lookup_map_overwrite l k r (by assumption)
  · rename_i h
    rw [lookup_append_right (lookup_eq_none (not_mem_fst_of_not_any h)),
      List.lookup_cons]
    simp

theorem map_fst_overwrite (l : List (Str × Raw α)) (k : Str) (r : Raw α) :
    (l.map (fun q => if q.1 == k then (k, r) else q)).map Prod.fst
      = l.map Prod.fst := by
  induction l with
  | nil => rfl
  | cons a t ih =>
    obtain ⟨a1, a2⟩ := a
    simp only [List.map_cons, ih]
    cases hk : a1 == k with
    | true => simp [eq_of_beq hk]
    | false => simp [hk]

theorem nodup_setPairs {l : List (Str × Raw α)} (k : Str) (r : Raw α)
    (hd : (l.map Prod.fst).Nodup) :
    ((setPairs l k r).map Prod.fst).Nodup := by
  unfold setPairs
  split
  · rw [map_fst_overwrite]; exact hd
  · rename_i h
    have hnm := not_mem_fst_of_not_any h
    simp only [List.map_append, List.map_cons, List.map_nil]
    rw [List.nodup_append]
    refine ⟨hd, List.nodup_singleton k, fun x hx hxk => ?_⟩
    rw [List.mem_singleton] at hxk
    exact hnm (hxk ▸ hx)

theorem lookup_filter_ne (l : List (Str × Raw α)) (k : Str) :
    (l.filter (fun q => !(q.1 == k))).lookup k = none := by
  apply lookup_eq_none
  intro hm
  obtain ⟨q, hq, hq1⟩ := List.mem_map.mp hm
  have := List.of_mem_filter hq
  simp [hq1] at this

theorem lookup_of_get? {l : List (Str × Raw α)}
    (hd : (l.map Prod.fst).Nodup) {i : Nat} {k : Str} {r : Raw α}
    (h : l.get? i = some (k, r)) : l.lookup k = some r := by
  induction l generalizing i with
  | nil => simp at h
  | cons a t ih =>
    obtain ⟨a1, a2⟩ := a
    simp only [List.map_cons, List.nodup_cons] at hd
    cases i with
    | zero =>
      simp only [List.get?_cons_zero, Option.some_inj] at h
      cases h
      rw [List.lookup_cons]
      simp
    | succ n =>
      simp only [List.get?_cons_succ] at h
      have hkm : k ∈ t.map Prod.fst :=
        List.mem_map.mpr ⟨(k, r), List.get?_mem h, rfl⟩
      have hk : (k == a1) = false :=
        beq_eq_false_iff_ne.mpr (fun he => hd.1 (he ▸ hkm))
      rw [List.lookup_cons]
      simp only [hk]
      exact ih hd.2 h

/-! Lemmas about the engine operations. -/

theorem get_of_env {b : Backing α} {k : Str} {s : Stored α} {now : Int}
    (hb : getItem b k = some (some s)) (hf : expiredAt s.e now = false) :
    get k now b = (some s.v, b, []) := by
  unfold get
  rw [hb]
  simp [hf]

theorem get_of_env_expired {b : Backing α} {k : Str} {s : Stored α} {now : Int}
    (hb : getItem b k = some (some s)) (he : expiredAt s.e now = true) :
    get k now b
      = (none, (if b.removeFail then b else removeItem b k),
          [Change.remove k]) := by
  unfold get
  rw [hb]
  simp [he]

theorem get_of_absent {b : Backing α} {k : Str} {now : Int}
    (hb : getItem b k = none) : get k now b = (none, b, []) := by
  unfold get
  rw [hb]

theorem get_of_junk {b : Backing α} {k : Str} {now : Int}
    (hb : getItem b k = some none) : get k now b = (none, b, []) := by
  unfold get
  rw [hb]

theorem get_items_sublist (k : Str) (now : Int) (b : Backing α) :
    List.Sublist (get k now b).2.1.items b.items := by
  unfold get
  cases hb : getItem b k with
  | none => simp
  | some r =>
    cases r with
    | none => simp
    | some s =>
      cases he : expiredAt s.e now with
      | false => simp [he]
      | true =>
        cases hr : b.removeFail with
        | true => simp [he, hr]
        | false => simp [he, hr, removeItem, List.filter_sublist]

theorem has_fst_iff {k : Str} {now : Int} {b : Backing α} :
    (has k now b).1 = true ↔
      ∃ s : Stored α, getItem b k = some (some s)
        ∧ expiredAt s.e now = false := by
  unfold has get
  cases hb : getItem b k with
  | none => simp
  | some r =>
    cases r with
    | none => simp
    | some s =>
      cases he : expiredAt s.e now with
      | true => simp [he]
      | false => simp [he]

theorem has_of_env {b : Backing α} {k : Str} {s : Stored α} {now : Int}
    (hb : getItem b k = some (some s)) (hf : expiredAt s.e now = false) :
    has k now b = (true, b, []) := by
  unfold has
  rw [get_of_env hb hf]
  rfl

/-! Lemmas about the keys() loop. -/

theorem keysLoop_succ (now : Int) (fuel : Nat) (b : Backing α) (i : Nat)
    (ks : List Str) (evs : List Change) :
    keysLoop now (fuel + 1) b i ks evs =
      if i < b.items.length then
        match keyAt b i with
        | none => keysLoop now fuel b (i + 1) ks evs
        | some k =>
          if k.isEmpty then keysLoop now fuel b (i + 1) ks evs
          else
            if (has k now b).1 then
              keysLoop now fuel (has k now b).2.1 (i + 1) (ks ++ [k])
                (evs ++ (has k now b).2.2)
            else
              keysLoop now fuel (has k now b).2.1 (i + 1) ks
                (evs ++ (has k now b).2.2)
      else (ks, b, evs) := rfl

theorem keysLoop_keys_nonempty (now : Int) :
    ∀ (fuel : Nat) (b : Backing α) (i : Nat) (ks : List Str)
      (evs : List Change),
      (∀ x ∈ ks, x ≠ ([] : Str)) →
      ∀ x ∈ (keysLoop now fuel b i ks evs).1, x ≠ ([] : Str) := by
  intro fuel
  induction fuel with
  | zero =>
    intro b i ks evs hks
    simpa [keysLoop] using hks
  | succ fuel ih =>
    intro b i ks evs hks
    rw [keysLoop_succ]
    split
    · split
      · exact ih b (i + 1) ks evs hks
      · rename_i k hkey
        split
        · exact ih b (i + 1) ks evs hks
        · rename_i hke
          split
          · apply ih
            intro x hx
            rcases List.mem_append.mp hx with hx | hx
            · exact hks x hx
            · rw [List.mem_singleton] at hx
              subst hx
              intro hnil
              rw [hnil] at hke
              exact hke rfl
          · exact ih _ (i + 1) ks _ hks
    · exact hks

theorem keysLoop_not_mem_of_expired (now : Int) (bb : Backing α)
    (hd : (bb.items.map Prod.fst).Nodup)
    {k : Str} {s : Stored α}
    (hk : getItem bb k = some (some s))
    (he : expiredAt s.e now = true) :
    ∀ (fuel : Nat) (b : Backing α) (i : Nat) (ks : List Str)
      (evs : List Change),
      List.Sublist b.items bb.items → k ∉ ks →
      k ∉ (keysLoop now fuel b i ks evs).1 := by
  intro fuel
  induction fuel with
  | zero =>
    intro b i ks evs _ hks
    simpa [keysLoop] using hks
  | succ fuel ih =>
    intro b i ks evs hsub hks
    rw [keysLoop_succ]
    split
    · split
      · exact ih b (i + 1) ks evs hsub hks
      · rename_i k' hkey
        split
        · exact ih b (i + 1) ks evs hsub hks
        · have hsub' : List.Sublist (has k' now b).2.1.items bb.items :=
            List.Sublist.trans (get_items_sublist k' now b) hsub
          split
          · rename_i hr
            apply ih _ (i + 1) _ _ hsub'
            intro hmem
            rcases List.mem_append.mp hmem with hmem | hmem
            · exact hks hmem
            · rw [List.mem_singleton] at hmem
              subst hmem
              obtain ⟨s', hs', hf'⟩ := has_fst_iff.mp hr
              have heq : some (some s) = some (some s') :=
                hk.symm.trans (lookup_sublist hsub hd hs')
              injection heq with h1
              injection h1 with h2
              rw [← h2, he] at hf'
              simp at hf'
          · exact ih _ (i + 1) _ _ hsub' hks
    · exact hks

theorem drop_eq_cons_of_get? {β : Type} {l : List β} {i : Nat} {q : β}
    (h : l.get? i = some q) : l.drop i = q :: l.drop (i + 1) := by
  induction l generalizing i with
  | nil => simp at h
  | cons a t ih =>
    cases i with
    | zero =>
      simp only [List.get?_cons_zero, Option.some_inj] at h
      simp [h]
    | succ n =>
      simp only [List.get?_cons_succ] at h
      simpa using ih h

theorem keyAt_eq_some {b : Backing α} {i : Nat} {k : Str}
    (h : keyAt b i = some k) : ∃ r, b.items.get? i = some (k, r) := by
  unfold keyAt at h
  cases hg : b.items.get? i with
  | none =>
    rw [hg] at h
    cases h
  | some q =>
    obtain ⟨q1, q2⟩ := q
    rw [hg] at h
    simp only [Option.map_some'] at h
    injection h with h
    subst h
    exact ⟨q2, rfl⟩

theorem keyAt_eq_none {b : Backing α} {i : Nat}
    (h : keyAt b i = none) : b.items.length ≤ i := by
  unfold keyAt at h
  cases hg : b.items.get? i with
  | some q =>
    rw [hg] at h
    cases h
  | none => exact List.get?_eq_none.mp hg

theorem keysLoop_of_fresh (now : Int) {b : Backing α}
    (hd : (b.items.map Prod.fst).Nodup)
    (hfresh : ∀ q ∈ b.items, freshB now q = true) :
    ∀ (fuel i : Nat) (ks : List Str) (evs : List Change),
      b.items.length ≤ fuel + i →
      keysLoop now fuel b i ks evs =
        (ks ++ ((b.items.drop i).filter
            (fun q => !q.1.isEmpty)).map Prod.fst, b, evs) := by
  intro fuel
  induction fuel with
  | zero =>
    intro i ks evs hle
    rw [List.drop_eq_nil_of_le (by omega)]
    simp [keysLoop]
  | succ fuel ih =>
    intro i ks evs hle
    rw [keysLoop_succ]
    split
    · rename_i hi
      split
      · rename_i hkey
        have := keyAt_eq_none hkey
        omega
      · rename_i k0 hkey
        obtain ⟨r, hq⟩ := keyAt_eq_some hkey
        have hdrop := drop_eq_cons_of_get? hq
        split
        · rename_i hke
          rw [ih (i + 1) ks evs (by omega), hdrop]
          simp [hke]
        · rename_i hke
          have hmem : (k0, r) ∈ b.items := List.get?_mem hq
          have hfr := hfresh (k0, r) hmem
          cases r with
          | none => simp [freshB] at hfr
          | some s =>
            have hf : expiredAt s.e now = false := by
              simpa [freshB] using hfr
            have hhas : has k0 now b = (true, b, []) :=
              has_of_env (lookup_of_get? hd hq) hf
            split
            · rw [hhas, ih (i + 1) (ks ++ [k0]) (evs ++ []) (by omega), hdrop]
              have hke' : k0.isEmpty = false := by simpa using hke
              simp [hke', List.append_assoc]
            · rename_i hr
              rw [hhas] at hr
              simp at hr
    · rename_i hi
      rw [List.drop_eq_nil_of_le (by omega)]
      simp

theorem keys_of_fresh {now : Int} {b : Backing α}
    (hd : (b.items.map Prod.fst).Nodup)
    (hfresh : ∀ q ∈ b.items, freshB now q = true) :
    keys now b
      = ((b.items.filter (fun q => !q.1.isEmpty)).map Prod.fst, b, []) := by
  unfold keys
  rw [keysLoop_of_fresh now hd hfresh b.items.length 0 [] [] (by omega)]
  simp

/-! Lemmas about the namespaced clear loop. -/

theorem wpClearLoop_cons (p k : Str) (rest : List Str) (b : Backing α)
    (evs : List Change) :
    wpClearLoop p (k :: rest) b evs =
      if startsWith k (p ++ [':']) then
        wpClearLoop p rest (remove k b).1 (evs ++ (remove k b).2)
      else wpClearLoop p rest b evs := rfl

theorem wpClearLoop_items (p : Str) :
    ∀ (ks : List Str) (b : Backing α) (evs : List Change),
      b.removeFail = false →
      (wpClearLoop p ks b evs).1.items
        = b.items.filter
            (fun q => !(decide (q.1 ∈ ks) && startsWith q.1 (p ++ [':']))) := by
  intro ks
  induction ks with
  | nil =>
    intro b evs _
    have : b.items.filter
        (fun q => !(decide (q.1 ∈ ([] : List Str))
          && startsWith q.1 (p ++ [':']))) = b.items := by
      apply List.filter_eq_self.mpr
      intro q _
      simp
    rw [this]
    rfl
  | cons k rest ih =>
    intro b evs hrf
    rw [wpClearLoop_cons]
    split
    · rename_i hsw
      have hrm : remove k b = (removeItem b k, [Change.remove k]) := by
        simp [remove, hrf]
      rw [hrm]
      rw [ih (removeItem b k) (evs ++ [Change.remove k]) (by simp [removeItem, hrf])]
      show (List.filter _ (b.items.filter (fun q => !(q.1 == k)))) = _
      rw [List.filter_filter]
      apply List.filter_congr
      intro q _
      by_cases h : q.1 = k
      · simp [h, hsw]
      · simp [h, List.mem_cons]
    · rename_i hsw
      rw [ih b evs hrf]
      apply List.filter_congr
      intro q _
      have hsw' : startsWith k (p ++ [':']) = false := by simpa using hsw
      by_cases h : q.1 = k
      · rw [h]
        simp [List.mem_cons, hsw']
      · simp [h, List.mem_cons]

theorem wpClearLoop_no_clear (p : Str) :
    ∀ (ks : List Str) (b : Backing α) (evs : List Change),
      Change.clear ∉ evs → Change.clear ∉ (wpClearLoop p ks b evs).2 := by
  intro ks
  induction ks with
  | nil =>
    intro b evs h
    simpa [wpClearLoop] using h
  | cons k rest ih =>
    intro b evs h
    rw [wpClearLoop_cons]
    split
    · apply ih
      intro hm
      rcases List.mem_append.mp hm with hm | hm
      · exact h hm
      · simp [remove] at hm
    · exact ih b evs h

/-! Prefix-string helpers. -/

theorem isPrefixOf_append_self (l t : Str) : l.isPrefixOf (l ++ t) = true := by
  induction l with
  | nil => simp [List.isPrefixOf]
  | cons a l ih => simp [List.cons_append, List.isPrefixOf, ih]

theorem startsWith_pfx (p k : Str) :
    startsWith (pfx p k) (p ++ [':']) = true := by
  unfold startsWith pfx
  exact isPrefixOf_append_self (p ++ [':']) k

theorem drop_pfx (p k : Str) : (pfx p k).drop (p.length + 1) = k := by
  unfold pfx
  have h : p.length + 1 = (p ++ [':']).length := by simp
  rw [h, List.drop_left]

theorem pfx_ne_nil (p k : Str) : pfx p k ≠ ([] : Str) := by
  unfold pfx
  cases p <;> simp

theorem getItem_setItem_self (b : Backing α) (k : Str) (r : Raw α) :
    getItem (setItem b k r) k = some r := lookup_setPairs b.items k r

theorem getItem_removeItem_self (b : Backing α) (k : Str) :
    getItem (removeItem b k) k = none := lookup_filter_ne b.items k

theorem freshB_setPairs {l : List (Str × Raw α)} {k : Str} {s : Stored α}
    (now : Int) (hfresh : ∀ q ∈ l, freshB now q = true)
    (hs : expiredAt s.e now = false) :
    ∀ q ∈ setPairs l k (some s), freshB now q = true := by
  intro q hq
  unfold setPairs at hq
  split at hq
  · rcases List.mem_map.mp hq with ⟨q0, hq0, hmap⟩
    by_cases h : (q0.1 == k) = true
    · rw [if_pos h] at hmap
      rw [← hmap]
      simp [freshB, hs]
    · rw [if_neg h] at hmap
      rw [← hmap]
      exact hfresh q0 hq0
  · rcases List.mem_append.mp hq with hq | hq
    · exact hfresh q hq
    · rw [List.mem_singleton] at hq
      rw [hq]
      simp [freshB, hs]

theorem pfx_isEmpty (p k : Str) : (pfx p k).isEmpty = false := by
  unfold pfx
  cases p <;> rfl

theorem startsWith_nil_pfx (p : Str) :
    startsWith ([] : Str) (p ++ [':']) = false := by
  unfold startsWith
  cases p with
  | nil => simp [List.isPrefixOf]
  | cons a t => simp [List.isPrefixOf]

theorem isEmpty_true_iff (l : Str) : l.isEmpty = true ↔ l = ([] : Str) := by
  cases l <;> simp [List.isEmpty]

/-! Claim theorems. -/

/-- C1: after set(k, v, ttl t) with t > 0 at time n on a non-failing
backend, get(k) returns v immediately and still at time n + t exactly
(expiry is strict); at any time strictly past n + t, get(k) returns absent
and a subsequent has(k) returns false. -/
theorem C1_ttl_expiry {α : Type} (k : Str) (v : α) (t n nlat : Int)
    (items : List (Str × Raw α))
    (ht : 0 < t) (hn : 0 ≤ n) (hlat : n + t < nlat) :
    (get k n (set k v (some t) n ⟨items, false, false, false⟩).1).1 = some v
  ∧ (get k (n + t) (set k v (some t) n ⟨items, false, false, false⟩).1).1
      = some v
  ∧ (get k nlat (set k v (some t) n ⟨items, false, false, false⟩).1).1 = none
  ∧ (has k nlat
      (get k nlat
        (set k v (some t) n ⟨items, false, false, false⟩).1).2.1).1
      = false := by
  have ht0 : (t != 0) = true := bne_iff_ne.mpr (by omega)
  have hset : (set k v (some t) n (⟨items, false, false, false⟩ : Backing α)).1
      = setItem ⟨items, false, false, false⟩ k (some ⟨v, some (n + t)⟩) := by
    simp [set, mkPayload, ht0]
  have hlook : getItem (setItem (⟨items, false, false, false⟩ : Backing α) k
      (some ⟨v, some (n + t)⟩)) k = some (some ⟨v, some (n + t)⟩) :=
    getItem_setItem_self _ k (some ⟨v, some (n + t)⟩)
  have hf1 : expiredAt (some (n + t)) n = false := by
    show ((n + t != 0) && decide (n + t < n)) = false
    rw [decide_eq_false (show ¬n + t < n by omega), Bool.and_false]
  have hf2 : expiredAt (some (n + t)) (n + t) = false := by
    show ((n + t != 0) && decide (n + t < n + t)) = false
    rw [decide_eq_false (show ¬n + t < n + t by omega), Bool.and_false]
  have he : expiredAt (some (n + t)) nlat = true := by
    show ((n + t != 0) && decide (n + t < nlat)) = true
    rw [bne_iff_ne.mpr (show n + t ≠ 0 by omega),
      decide_eq_true (show n + t < nlat by omega)]
    rfl
  refine ⟨?_, ?_, ?_, ?_⟩
  · rw [hset, get_of_env hlook hf1]
  · rw [hset, get_of_env hlook hf2]
  · rw [hset, get_of_env_expired hlook he]
  · rw [hset, get_of_env_expired hlook he]
    have hrf : (setItem (⟨items, false, false, false⟩ : Backing α) k
        (some ⟨v, some (n + t)⟩)).removeFail = false := rfl
    rw [hrf]
    simp only [Bool.false_eq_true, if_false]
    unfold has
    rw [get_of_absent (getItem_removeItem_self _ k)]
    rfl

/-- C1 witness at k = "k", v = 1, t = 5, n = 0, later time 6. -/
theorem C1_ttl_expiry_witness :
    (get ['k'] 0
      (set ['k'] (1 : Nat) (some 5) 0 ⟨[], false, false, false⟩).1).1 = some 1
  ∧ (get ['k'] (0 + 5)
      (set ['k'] (1 : Nat) (some 5) 0 ⟨[], false, false, false⟩).1).1 = some 1
  ∧ (get ['k'] 6
      (set ['k'] (1 : Nat) (some 5) 0 ⟨[], false, false, false⟩).1).1 = none
  ∧ (has ['k'] 6
      (get ['k'] 6
        (set ['k'] (1 : Nat) (some 5) 0
          ⟨[], false, false, false⟩).1).2.1).1 = false :=
  C1_ttl_expiry ['k'] 1 5 0 6 [] (by decide) (by decide) (by decide)

/-- C3 counterexample: a negative TTL is truthy, so set at time 10 with
ttl -1 stores an envelope carrying expiry 9 rather than omitting expiry as
the claim requires for non-positive TTLs. -/
theorem C3_counterexample :
    (set ['k'] (7 : Nat) (some (-1)) 10 ⟨[], false, false, false⟩).1.items
      = [(['k'], some ⟨7, some 9⟩)] := by decide

/-- C3 amended: the written envelope carries expiry now + ttl exactly when
the supplied ttl is nonzero (JS truthiness); a zero or absent ttl yields no
expiry; in particular a negative ttl yields an already-passed expiry. -/
theorem C3_envelope_expiry {α : Type} (k : Str) (v : α) (now : Int)
    (items : List (Str × Raw α)) :
    (∀ t : Int, t ≠ 0 →
      getItem (set k v (some t) now ⟨items, false, false, false⟩).1 k
        = some (some ⟨v, some (now + t)⟩))
  ∧ getItem (set k v (some 0) now ⟨items, false, false, false⟩).1 k
      = some (some ⟨v, none⟩)
  ∧ getItem (set k v none now ⟨items, false, false, false⟩).1 k
      = some (some ⟨v, none⟩) := by
  refine ⟨?_, ?_, ?_⟩
  · intro t ht
    have ht0 : (t != 0) = true := bne_iff_ne.mpr ht
    have hset :
        (set k v (some t) now (⟨items, false, false, false⟩ : Backing α)).1
          = setItem ⟨items, false, false, false⟩ k (some ⟨v, some (now + t)⟩) := by
      simp [set, mkPayload, ht0]
    rw [hset]
    exact getItem_setItem_self _ k _
  · have hset :
        (set k v (some 0) now (⟨items, false, false, false⟩ : Backing α)).1
          = setItem ⟨items, false, false, false⟩ k (some ⟨v, none⟩) := by
      simp [set, mkPayload]
    rw [hset]
    exact getItem_setItem_self _ k _
  · have hset :
        (set k v none now (⟨items, false, false, false⟩ : Backing α)).1
          = setItem ⟨items, false, false, false⟩ k (some ⟨v, none⟩) := by
      simp [set, mkPayload]
    rw [hset]
    exact getItem_setItem_self _ k _

/-- C3 amended witness at ttl 2 (nonzero) and ttl 0. -/
theorem C3_envelope_expiry_witness :
    getItem (set ['k'] (3 : Nat) (some 2) 7 ⟨[], false, false, false⟩).1 ['k']
      = some (some ⟨3, some 9⟩)
  ∧ getItem (set ['k'] (3 : Nat) (some 0) 7 ⟨[], false, false, false⟩).1 ['k']
      = some (some ⟨3, none⟩) :=
  ⟨(C3_envelope_expiry ['k'] 3 7 []).1 2 (by decide),
    (C3_envelope_expiry ['k'] 3 7 []).2.1⟩

/-- C4: when the backend write fails, set returns normally with the state
unchanged and no event; when the write succeeds, exactly one Set event is
published. -/
theorem C4_write_failure_swallowed {α : Type} (k : Str) (v : α)
    (ttl : Option Int) (now : Int) (b : Backing α) :
    set k v ttl now { b with setFail := true }
      = ({ b with setFail := true }, [])
  ∧ (set k v ttl now { b with setFail := false }).2 = [Change.set k] := by
  constructor
  · simp [set]
  · simp [set]

/-- C5 counterexample: with a backend whose removal throws, remove("k")
leaves the entry readable — get("k") afterwards returns the stored value 3,
not absent, contradicting the claim that removal failure still yields
absent. -/
theorem C5_counterexample :
    (get ['k'] 0 (remove ['k']
      (⟨[(['k'], some ⟨(3 : Nat), none⟩)], false, true, false⟩
        : Backing Nat)).1).1 = some 3 := by decide

/-- C5 amended: remove(k) always publishes exactly one Remove event,
regardless of prior existence or backend failure; and whenever the backend
removal succeeds, a subsequent get(k) returns absent. -/
theorem C5_remove_contract {α : Type} (k : Str) (now : Int) (b : Backing α) :
    (remove k b).2 = [Change.remove k]
  ∧ (get k now (remove k { b with removeFail := false }).1).1 = none := by
  constructor
  · rfl
  · have h1 : (remove k { b with removeFail := false }).1
        = removeItem { b with removeFail := false } k := by
      simp [remove]
    rw [h1, get_of_absent (getItem_removeItem_self _ k)]

/-- C6 counterexample: set("k", 2, ttl -5) at time 5 stores expiry 0; at
time 9 that expiry has strictly passed, yet get returns the value with no
removal and no event, because a zero expiry is falsy in the guard. -/
theorem C6_counterexample :
    (set ['k'] (2 : Nat) (some (-5)) 5 ⟨[], false, false, false⟩).1.items
      = [(['k'], some ⟨2, some 0⟩)]
  ∧ ((0 : Int) < 9)
  ∧ get ['k'] 9 (set ['k'] (2 : Nat) (some (-5)) 5 ⟨[], false, false, false⟩).1
      = (some 2,
          (set ['k'] (2 : Nat) (some (-5)) 5 ⟨[], false, false, false⟩).1,
          []) := by
  refine ⟨by decide, by decide, by decide⟩

/-- C6 amended: for a stored envelope whose expiry is nonzero (truthy) and
strictly passed, get removes the key (tolerating removal failure), publishes
one Remove event and returns absent; for an absent or unparseable raw entry,
get returns absent with no event and no state change. -/
theorem C6_lazy_expiration {α : Type} (k : Str) (now : Int) (b : Backing α) :
    (∀ (v : α) (e : Int), getItem b k = some (some ⟨v, some e⟩) → e ≠ 0 →
      e < now →
      get k now b
        = (none, (if b.removeFail then b else removeItem b k),
            [Change.remove k]))
  ∧ (getItem b k = none → get k now b = (none, b, []))
  ∧ (getItem b k = some none → get k now b = (none, b, [])) := by
  refine ⟨?_, get_of_absent, get_of_junk⟩
  intro v e hb he hlt
  apply get_of_env_expired hb
  have h1 : (e != 0) = true := bne_iff_ne.mpr he
  have h2 : decide (e < now) = true := decide_eq_true hlt
  simp [expiredAt, h1, h2]

/-- C6 amended witness: envelope with expiry 2 read at time 5. -/
theorem C6_lazy_expiration_witness :
    get ['k'] 5
      (⟨[(['k'], some ⟨(1 : Nat), some 2⟩)], false, false, false⟩ : Backing Nat)
      = (none,
          removeItem
            (⟨[(['k'], some ⟨(1 : Nat), some 2⟩)], false, false, false⟩
              : Backing Nat) ['k'],
          [Change.remove ['k']]) := by
  have h := (@C6_lazy_expiration Nat ['k'] 5
    ⟨[(['k'], some ⟨1, some 2⟩)], false, false, false⟩).1 1 2
    (by decide) (by decide) (by decide)
  simpa using h

/-- C10: the empty-string key is never enumerated by keys() (falsy key
slots are skipped), even though set("", v) stores it and get("") still
returns v. -/
theorem C10_empty_key {α : Type} (v : α) (now : Int) (b : Backing α)
    (items : List (Str × Raw α)) :
    ([] : Str) ∉ (keys now b).1
  ∧ (get ([] : Str) now
      (set ([] : Str) v none now ⟨items, false, false, false⟩).1).1 = some v
  ∧ ([] : Str) ∉
      (keys now (set ([] : Str) v none now ⟨items, false, false, false⟩).1).1 := by
  have hne : ∀ bb : Backing α, ([] : Str) ∉ (keys now bb).1 := by
    intro bb hmem
    unfold keys at hmem
    exact keysLoop_keys_nonempty now bb.items.length bb 0 [] [] (by simp)
      [] hmem rfl
  refine ⟨hne b, ?_, hne _⟩
  have hset : (set ([] : Str) v none now
      (⟨items, false, false, false⟩ : Backing α)).1
        = setItem ⟨items, false, false, false⟩ [] (some ⟨v, none⟩) := by
    simp [set, mkPayload]
  rw [hset,
    get_of_env (getItem_setItem_self _ [] (some ⟨v, none⟩)) (by rfl)]

/-- C2 counterexample: with an expired "a" at index 0 and a fresh "b" at
index 1, the purge of "a" during the scan shifts the enumeration indices and
keys() returns the empty list — omitting "b" even though has("b") is true
at the moment of the scan. -/
theorem C2_counterexample :
    (keys 5 (⟨[(['a'], some ⟨(0 : Nat), some 1⟩), (['b'], some ⟨1, none⟩)],
        false, false, false⟩ : Backing Nat)).1 = []
  ∧ (has ['b'] 5
      (⟨[(['a'], some ⟨(0 : Nat), some 1⟩), (['b'], some ⟨1, none⟩)],
        false, false, false⟩ : Backing Nat)).1 = true := by
  exact ⟨by decide, by decide⟩

/-- C2 amended: on a duplicate-free backend, keys() never returns a key
whose stored envelope is expired at scan time; it is however not exhaustive,
since mid-scan purges can make it skip non-expired keys. -/
theorem C2_no_expired_key {α : Type} (now : Int) (b : Backing α)
    (hd : (b.items.map Prod.fst).Nodup)
    (k : Str) (s : Stored α)
    (hk : getItem b k = some (some s))
    (he : expiredAt s.e now = true) :
    k ∉ (keys now b).1 := by
  unfold keys
  exact keysLoop_not_mem_of_expired now b hd hk he b.items.length b 0 [] []
    (List.Sublist.refl _) (by simp)

/-- C2 amended witness: an expired key is not enumerated. -/
theorem C2_no_expired_key_witness :
    ['a'] ∉ (keys 5
      (⟨[(['a'], some ⟨(0 : Nat), some 1⟩)], false, false, false⟩
        : Backing Nat)).1 :=
  C2_no_expired_key 5
    (⟨[(['a'], some ⟨(0 : Nat), some 1⟩)], false, false, false⟩ : Backing Nat)
    (by decide) ['a'] ⟨0, some 1⟩ (by decide) (by decide)

/-- C7 counterexample: the underlying store holds an expired "z"; after
withPrefix(store, "a").set("x", 1), store.get("a:x") is 1, but the
namespaced keys() omits "x" because the scan purge of "z" shifts the
enumeration. -/
theorem C7_counterexample :
    (wpGet ['a'] ['x'] 5
      (wpSet ['a'] ['x'] (1 : Nat) none 5
        (⟨[(['z'], some ⟨0, some 1⟩)], false, false, false⟩
          : Backing Nat)).1).1 = some 1
  ∧ (wpKeys ['a'] 5
      (wpSet ['a'] ['x'] (1 : Nat) none 5
        (⟨[(['z'], some ⟨0, some 1⟩)], false, false, false⟩
          : Backing Nat)).1).1 = [] := by
  exact ⟨by decide, by decide⟩

/-- C7 amended: on a duplicate-free backend holding no expired entries,
after withPrefix(store, p).set(k, v) the underlying store.get(p + ":" + k)
returns v, and withPrefix(store, p).keys() includes k with the prefix and
delimiter stripped. -/
theorem C7_roundtrip {α : Type} (p k : Str) (v : α) (now : Int)
    (items : List (Str × Raw α))
    (hd : (items.map Prod.fst).Nodup)
    (hfresh : ∀ q ∈ items, freshB now q = true) :
    (get (pfx p k) now
      (wpSet p k v none now ⟨items, false, false, false⟩).1).1 = some v
  ∧ k ∈ (wpKeys p now
      (wpSet p k v none now ⟨items, false, false, false⟩).1).1 := by
  have hset :
      (wpSet p k v none now (⟨items, false, false, false⟩ : Backing α)).1
        = setItem ⟨items, false, false, false⟩ (pfx p k) (some ⟨v, none⟩) := by
    simp [wpSet, set, mkPayload]
  rw [hset]
  have hl : getItem
      (setItem (⟨items, false, false, false⟩ : Backing α) (pfx p k)
        (some ⟨v, none⟩)) (pfx p k) = some (some ⟨v, none⟩) :=
    getItem_setItem_self _ _ _
  constructor
  · rw [get_of_env hl (by rfl)]
  · have hd1 : ((setItem (⟨items, false, false, false⟩ : Backing α) (pfx p k)
        (some ⟨v, none⟩)).items.map Prod.fst).Nodup :=
      nodup_setPairs _ _ hd
    have hfresh1 : ∀ q ∈ (setItem (⟨items, false, false, false⟩ : Backing α)
        (pfx p k) (some ⟨v, none⟩)).items, freshB now q = true :=
      freshB_setPairs now hfresh (by rfl)
    simp only [wpKeys]
    rw [keys_of_fresh hd1 hfresh1]
    obtain ⟨q, hqm, hq1⟩ := List.mem_map.mp (mem_fst_of_lookup hl)
    apply List.mem_map.mpr
    refine ⟨pfx p k, List.mem_filter.mpr ⟨?_, startsWith_pfx p k⟩,
      drop_pfx p k⟩
    apply List.mem_map.mpr
    refine ⟨q, List.mem_filter.mpr ⟨hqm, ?_⟩, hq1⟩
    rw [hq1, pfx_isEmpty]
    rfl

/-- C7 amended witness on an empty store with p = "a", k = "x", v = 1. -/
theorem C7_roundtrip_witness :
    (get (pfx ['a'] ['x']) 0
      (wpSet ['a'] ['x'] (1 : Nat) none 0 ⟨[], false, false, false⟩).1).1
      = some 1
  ∧ ['x'] ∈ (wpKeys ['a'] 0
      (wpSet ['a'] ['x'] (1 : Nat) none 0 ⟨[], false, false, false⟩).1).1 :=
  C7_roundtrip ['a'] ['x'] 1 0 [] (by decide) (by simp)

/-- C8 counterexample: with an expired "z" enumerated before "a:x", the
namespaced clear on prefix "a" sees a keys() snapshot that skipped "a:x",
so the prefixed key survives the clear, contradicting the claim. -/
theorem C8_counterexample :
    getItem (wpClear ['a'] 5
      (⟨[(['z'], some ⟨(0 : Nat), some 1⟩),
          (pfx ['a'] ['x'], some ⟨1, none⟩)], false, false, false⟩
        : Backing Nat)).1 (pfx ['a'] ['x'])
      = some (some ⟨1, none⟩) := by decide

/-- C8 amended: on a duplicate-free backend with no expired entries, the
namespaced clear removes exactly the entries whose key starts with
prefix + ":", leaves every other entry unchanged, and never publishes a
Clear event (the underlying store's clear is not invoked). -/
theorem C8_namespaced_clear {α : Type} (p : Str) (now : Int)
    (items : List (Str × Raw α))
    (hd : (items.map Prod.fst).Nodup)
    (hfresh : ∀ q ∈ items, freshB now q = true) :
    (wpClear p now (⟨items, false, false, false⟩ : Backing α)).1.items
      = items.filter (fun q => !startsWith q.1 (p ++ [':']))
  ∧ Change.clear ∉
      (wpClear p now (⟨items, false, false, false⟩ : Backing α)).2 := by
  have hkeys :=
    @keys_of_fresh α now (⟨items, false, false, false⟩ : Backing α) hd hfresh
  constructor
  · simp only [wpClear]
    rw [hkeys]
    rw [wpClearLoop_items p _ _ _ (by rfl)]
    apply List.filter_congr
    intro q hq
    by_cases hqe : q.1.isEmpty = true
    · rw [isEmpty_true_iff] at hqe
      rw [hqe, startsWith_nil_pfx]
      simp
    · have hmem : q.1 ∈ (List.filter (fun q => !q.1.isEmpty)
          (⟨items, false, false, false⟩ : Backing α).items).map Prod.fst := by
        apply List.mem_map.mpr
        refine ⟨q, List.mem_filter.mpr ⟨hq, ?_⟩, rfl⟩
        have hqe' : q.1.isEmpty = false := by
          cases hqi : q.1.isEmpty
          · rfl
          · exact absurd hqi hqe
        rw [hqe']
        rfl
      rw [decide_eq_true hmem]
      simp
  · simp only [wpClear]
    rw [hkeys]
    exact wpClearLoop_no_clear p _ _ _ (by simp)

/-- C8 amended witness: the claim's own example, a store holding fresh
"a:x" and "b:y"; clearing the "a" namespace removes "a:x", keeps "b:y",
and emits no Clear. -/
theorem C8_namespaced_clear_witness :
    (wpClear ['a'] 0
      (⟨[(pfx ['a'] ['x'], some ⟨(1 : Nat), none⟩),
          (pfx ['b'] ['y'], some ⟨2, none⟩)], false, false, false⟩
        : Backing Nat)).1.items
      = [(pfx ['a'] ['x'], some ⟨(1 : Nat), none⟩),
          (pfx ['b'] ['y'], some ⟨2, none⟩)].filter
          (fun q => !startsWith q.1 (['a'] ++ [':']))
  ∧ Change.clear ∉ (wpClear ['a'] 0
      (⟨[(pfx ['a'] ['x'], some ⟨(1 : Nat), none⟩),
          (pfx ['b'] ['y'], some ⟨2, none⟩)], false, false, false⟩
        : Backing Nat)).2 :=
  C8_namespaced_clear ['a'] 0
    [(pfx ['a'] ['x'], some ⟨(1 : Nat), none⟩),
      (pfx ['b'] ['y'], some ⟨2, none⟩)] (by decide) (by decide)

/-- C9: starting from any store state, a subscriber that observes
set("x", 1), remove("x"), clear() receives exactly Set x, Remove x, Clear in
that order; any set, remove or clear performed after its unsubscribe handle
returns delivers nothing more to it; calling the handle again changes
nothing; and the handle is an idempotent total function on every state. -/
theorem C9_subscriber_ordering (items : List (Str × Raw Int)) (now : Int) :
    (let s0 : Sys Int := ⟨⟨items, false, false, false⟩, [], 0, []⟩
     let l := (subscribe s0).1
     let s5 := unsubscribe l
       (sysClear (sysRemove ['x'] (sysSet ['x'] 1 none now (subscribe s0).2)))
     receivedBy l s5 = [Change.set ['x'], Change.remove ['x'], Change.clear]
     ∧ (∀ (k : Str) (v : Int) (ttl : Option Int) (n2 : Int),
         receivedBy l (sysSet k v ttl n2 s5) = receivedBy l s5)
     ∧ (∀ k : Str, receivedBy l (sysRemove k s5) = receivedBy l s5)
     ∧ receivedBy l (sysClear s5) = receivedBy l s5
     ∧ unsubscribe l s5 = s5
     ∧ ∀ s : Sys Int, unsubscribe l (unsubscribe l s) = unsubscribe l s) := by
  refine ⟨?_, ?_, ?_, ?_, ?_, ?_⟩
  · simp [subscribe, unsubscribe, sysSet, sysRemove, sysClear, set, remove,
      clear, publish, receivedBy]
  · intro k v ttl n2
    simp [subscribe, unsubscribe, sysSet, sysRemove, sysClear, set, remove,
      clear, publish, receivedBy, setItem, removeItem]
  · intro k
    simp [subscribe, unsubscribe, sysSet, sysRemove, sysClear, set, remove,
      clear, publish, receivedBy, setItem, removeItem]
  · simp [subscribe, unsubscribe, sysSet, sysRemove, sysClear, set, remove,
      clear, publish, receivedBy, setItem, removeItem]
  · simp [subscribe, unsubscribe, sysSet, sysRemove, sysClear, set, remove,
      clear, publish, receivedBy, setItem, removeItem]
  · intro s
    simp [unsubscribe, List.filter_filter]

end SmartStorage
